import Mathlib

/-!
Verification of the MedicodioAI clinical-extraction pipeline
(`simple_clinical_extractor.py`, `clinical_extractor.py`).

Texts are modelled as `List Char` (Python `str`).  The Python `re` module is
embedded by a small backtracking matcher (`runRE`) over a regex AST (`RE`)
that covers exactly the constructs used by the source patterns; `re.findall`
and `re.split` are embedded by left-to-right non-overlapping scans.
-/

namespace Medicodio

/-! ## Character predicates (Python `\d`, `\s`, `\w`, `str.lower`, ASCII range) -/

def isDigitCh (c : Char) : Bool := 48 ≤ c.toNat && c.toNat ≤ 57

def isUpperCh (c : Char) : Bool := 65 ≤ c.toNat && c.toNat ≤ 90

def isLowerCh (c : Char) : Bool := 97 ≤ c.toNat && c.toNat ≤ 122

def isLetterCh (c : Char) : Bool := isUpperCh c || isLowerCh c

/-- Python `\s` over ASCII: space, tab, newline, carriage return, vertical
tab, form feed. -/
def isSpaceCh (c : Char) : Bool :=
  c.toNat == 32 || c.toNat == 9 || c.toNat == 10 || c.toNat == 13 ||
  c.toNat == 11 || c.toNat == 12

/-- Python `\w` over ASCII: letters, digits, underscore. -/
def isWordCh (c : Char) : Bool := isLetterCh c || isDigitCh c || c == '_'

/-- ASCII lowercasing, as Python `str.lower` acts on ASCII text. -/
def lowerCh (c : Char) : Char :=
  if 65 ≤ c.toNat && c.toNat ≤ 90 then Char.ofNat (c.toNat + 32) else c

def lowerL (s : List Char) : List Char := s.map lowerCh

/-- Python `str.strip()`. -/
def stripL (s : List Char) : List Char :=
  ((((s.dropWhile isSpaceCh).reverse).dropWhile isSpaceCh).reverse)

/-- Python `str.rstrip('.')`. -/
def rstripDot (s : List Char) : List Char :=
  ((s.reverse.dropWhile (fun c => c == '.')).reverse)

/-- Python `re.sub(r'\s+', ' ', s)`: each maximal whitespace run becomes one
space.  `inWs` records whether the previous character was whitespace. -/
def collapseAux : Bool → List Char → List Char
  | _, [] => []
  | inWs, c :: cs =>
    if isSpaceCh c then
      if inWs then collapseAux true cs else ' ' :: collapseAux true cs
    else c :: collapseAux false cs

def collapseWs (s : List Char) : List Char := collapseAux false s

/-- Python substring containment `needle in hay`. -/
def containsSub (hay needle : List Char) : Bool :=
  match hay with
  | [] => needle.isEmpty
  | _ :: cs => needle.isPrefixOf hay || containsSub cs needle

/-- Python `int` on a digit string (e.g. `int(code)` for CPT filtering). -/
def digitsToNat (s : List Char) : Nat :=
  s.foldl (fun n c => n * 10 + (c.toNat - 48)) 0

/-- Word-character test on an optional character (out of range = non-word),
used for `\b`. -/
def wordOpt : Option Char → Bool
  | none => false
  | some c => isWordCh c

def nonWordOpt (c : Option Char) : Bool := !wordOpt c

/-! ## Regex AST

Single-character classes appearing in the source patterns. -/

inductive CharCls where
  | space    -- \s
  | digit    -- \d
  | upperAZ  -- [A-Z] (case-sensitive)
  | letterCI -- [A-Z] under re.IGNORECASE
  | dot      -- . without DOTALL
  | anyc     -- . with DOTALL
  | exact (c : Char)
  deriving Repr, DecidableEq

def clsMatch : CharCls → Char → Bool
  | .space, c => isSpaceCh c
  | .digit, c => isDigitCh c
  | .upperAZ, c => isUpperCh c
  | .letterCI, c => isLetterCh c
  | .dot, c => !(c == '\n')
  | .anyc, _ => true
  | .exact d, c => c == d

/-- Regex AST.  `lit ci s` is a literal (case-insensitive when `ci`);
`starG`/`starL` are greedy/lazy Kleene star over a character class (all
starred subexpressions in the source patterns are single-character classes);
`plusG` is greedy `+`; `repG cc n` is greedy `{n,}`; `wb` is `\b`; `eos` is
`\Z`; `grp` is the (single) capture group. -/
inductive RE where
  | eps
  | cls (cc : CharCls)
  | lit (ci : Bool) (s : List Char)
  | seq (a b : RE)
  | alt (a b : RE)
  | opt (a : RE)
  | starG (cc : CharCls)
  | starL (cc : CharCls)
  | plusG (cc : CharCls)
  | repG (cc : CharCls) (n : Nat)
  | wb
  | eos
  | grp (a : RE)
  deriving Repr

def reSeq (l : List RE) : RE := l.foldr RE.seq RE.eps

def reAlts : List RE → RE
  | [] => RE.eps
  | [r] => r
  | r :: rs => RE.alt r (reAlts rs)

def sLit (s : String) : RE := RE.lit true s.data

/-! ## Backtracking matcher

State: `prev` is the character just before the current position (for `\b`),
`rest` the remaining text, `g` the captured group so far.  Continuation-style
so that alternation/laziness backtrack exactly as Python `re` does. -/

/-- Greedy star over a class: longest run first, then backtrack. -/
def starGRun {α : Type} (cc : CharCls) :
    Option Char → List Char → (Option Char → List Char → Option α) → Option α
  | prev, [], k => k prev []
  | prev, c :: cs, k =>
    if clsMatch cc c then (starGRun cc (some c) cs k).orElse (fun _ => k prev (c :: cs))
    else k prev (c :: cs)

/-- Lazy star over a class: shortest run first. -/
def starLRun {α : Type} (cc : CharCls) :
    Option Char → List Char → (Option Char → List Char → Option α) → Option α
  | prev, [], k => k prev []
  | prev, c :: cs, k =>
    if clsMatch cc c then (k prev (c :: cs)).orElse (fun _ => starLRun cc (some c) cs k)
    else k prev (c :: cs)

/-- Exactly `n` class characters. -/
def repNRun {α : Type} (cc : CharCls) :
    Nat → Option Char → List Char → (Option Char → List Char → Option α) → Option α
  | 0, prev, rest, k => k prev rest
  | _ + 1, _, [], _ => none
  | n + 1, _, c :: cs, k =>
    if clsMatch cc c then repNRun cc n (some c) cs k else none

/-- Literal match (case-insensitive when `ci`). -/
def litRun {α : Type} (ci : Bool) :
    List Char → Option Char → List Char → (Option Char → List Char → Option α) → Option α
  | [], prev, rest, k => k prev rest
  | _ :: _, _, [], _ => none
  | p :: ps, _, c :: cs, k =>
    if (if ci then lowerCh c == lowerCh p else c == p) then litRun ci ps (some c) cs k
    else none

def runRE {α : Type} :
    RE → Option Char → List Char → Option (List Char) →
    (Option Char → List Char → Option (List Char) → Option α) → Option α
  | .eps, prev, rest, g, k => k prev rest g
  | .cls cc, _, rest, g, k =>
    match rest with
    | [] => none
    | c :: cs => if clsMatch cc c then k (some c) cs g else none
  | .lit ci s, prev, rest, g, k => litRun ci s prev rest (fun p r => k p r g)
  | .seq a b, prev, rest, g, k =>
    runRE a prev rest g (fun p r g2 => runRE b p r g2 k)
  | .alt a b, prev, rest, g, k =>
    (runRE a prev rest g k).orElse (fun _ => runRE b prev rest g k)
  | .opt a, prev, rest, g, k =>
    (runRE a prev rest g k).orElse (fun _ => k prev rest g)
  | .starG cc, prev, rest, g, k => starGRun cc prev rest (fun p r => k p r g)
  | .starL cc, prev, rest, g, k => starLRun cc prev rest (fun p r => k p r g)
  | .plusG cc, _, rest, g, k =>
    match rest with
    | [] => none
    | c :: cs =>
      if clsMatch cc c then starGRun cc (some c) cs (fun p r => k p r g) else none
  | .repG cc n, prev, rest, g, k =>
    repNRun cc n prev rest (fun p r => starGRun cc p r (fun p2 r2 => k p2 r2 g))
  | .wb, prev, rest, g, k =>
    if wordOpt prev != wordOpt rest.head? then k prev rest g else none
  | .eos, prev, rest, g, k =>
    match rest with
    | [] => k prev [] g
    | _ :: _ => none
  | .grp a, prev, rest, g, k =>
    runRE a prev rest g
      (fun p r _ => k p r (some (rest.take (rest.length - r.length))))

/-- Attempt a match of `r` anchored at the current position. -/
def tryRE (r : RE) (prev : Option Char) (rest : List Char) :
    Option (Option Char × List Char × Option (List Char)) :=
  runRE r prev rest none (fun p rest2 g => some (p, rest2, g))

/-- Leftmost match search: returns
`(textBeforeMatch, matchedText, group, prevAtResume, textAfterMatch)`. -/
def findFromAux (r : RE) :
    Option Char → List Char → List Char →
    Option (List Char × List Char × Option (List Char) × Option Char × List Char)
  | prev, [], acc =>
    match tryRE r prev [] with
    | some (p2, rest2, g) => some (acc.reverse, [], g, p2, rest2)
    | none => none
  | prev, c :: cs, acc =>
    match tryRE r prev (c :: cs) with
    | some (p2, rest2, g) =>
      some (acc.reverse, (c :: cs).take ((c :: cs).length - rest2.length), g, p2, rest2)
    | none => findFromAux r (some c) cs (c :: acc)

/-- `re.finditer` scan: non-overlapping leftmost matches, each reported as
(matched text, group). -/
def findallAux (r : RE) : Nat → Option Char → List Char → List (List Char × Option (List Char))
  | 0, _, _ => []
  | fuel + 1, prev, rest =>
    match findFromAux r prev rest [] with
    | none => []
    | some (_, matched, g, p2, after) =>
      (matched, g) ::
        (if matched.isEmpty then
          match after with
          | [] => []
          | c :: cs => findallAux r fuel (some c) cs
        else findallAux r fuel p2 after)

/-- `re.findall` for a group-free pattern: whole matches. -/
def findallWhole (r : RE) (text : List Char) : List (List Char) :=
  (findallAux r (text.length + 1) none text).map (fun x => x.1)

/-- `re.findall` for a one-group pattern: the captured groups. -/
def findallGrp (r : RE) (text : List Char) : List (List Char) :=
  (findallAux r (text.length + 1) none text).map (fun x => x.2.getD [])

/-- `re.split` for a group-free pattern. -/
def reSplitAux (r : RE) : Nat → Option Char → List Char → List (List Char)
  | 0, _, rest => [rest]
  | fuel + 1, prev, rest =>
    match findFromAux r prev rest [] with
    | none => [rest]
    | some (pre, matched, _, p2, after) =>
      if matched.isEmpty then [rest]
      else pre :: reSplitAux r fuel p2 after

def reSplit (r : RE) (text : List Char) : List (List Char) :=
  reSplitAux r (text.length + 1) none text

/-- First-occurrence-preserving deduplication, modelling `list(set(...))`
at the level of membership. -/
def dedupAux (seen : List (List Char)) : List (List Char) → List (List Char)
  | [] => []
  | x :: xs => if x ∈ seen then dedupAux seen xs else x :: dedupAux (x :: seen) xs

def dedup (l : List (List Char)) : List (List Char) := dedupAux [] l

theorem mem_dedupAux {a : List Char} :
    ∀ (seen l : List (List Char)), a ∈ dedupAux seen l ↔ a ∈ l ∧ a ∉ seen := by
  intro seen l
  induction l generalizing seen with
  | nil => simp [dedupAux]
  | cons x xs ih =>
    rw [dedupAux]
    by_cases hax : a = x
    · subst hax
      by_cases hx : a ∈ seen
      · rw [if_pos hx, ih]
        simp [hx]
      · rw [if_neg hx]
        simp [hx]
    · by_cases hx : x ∈ seen
      · rw [if_pos hx, ih]
        simp [hax]
      · rw [if_neg hx]
        simp only [List.mem_cons, hax, false_or, ih (x :: seen)]

theorem mem_dedup {a : List Char} {l : List (List Char)} : a ∈ dedup l ↔ a ∈ l := by
  rw [dedup, mem_dedupAux]
  simp

/-! ## Medical dictionaries (`SimpleClinicalExtractor._load_medical_dictionaries`) -/

def strList (l : List String) : List (List Char) := l.map String.data

def medical_terms : List (List Char) := strList
  ["diverticulosis", "diverticulitis", "hemorrhoids", "polyp", "polyps",
   "colitis", "proctitis", "gastritis", "esophagitis", "duodenitis",
   "bleeding", "ulcer", "ulceration", "inflammation", "stricture",
   "obstruction", "perforation", "fissure", "fistula", "abscess",
   "barrett's esophagus", "reflux", "gerd", "ibd", "crohn's disease",
   "ulcerative colitis", "celiac disease", "gastroenteritis",
   "adenoma", "adenomatous", "hyperplastic", "sessile", "pedunculated",
   "erosion", "erythema", "friability", "nodular", "villous",
   "tubular", "serrated", "dysplasia", "metaplasia", "neoplasia"]

def procedures_dict : List (List Char) := strList
  ["colonoscopy", "endoscopy", "egd", "sigmoidoscopy", "biopsy",
   "polypectomy", "cauterization", "ablation", "dilation",
   "sclerotherapy", "injection", "clipping", "argon plasma coagulation",
   "band ligation", "thermal therapy", "cryotherapy",
   "esophagogastroduodenoscopy", "upper endoscopy", "lower endoscopy",
   "endoscopic mucosal resection", "emr", "esd", "hemostasis"]

def symptoms : List (List Char) := strList
  ["bleeding", "pain", "cramping", "nausea", "vomiting", "diarrhea",
   "constipation", "bloating", "distension", "melena", "hematochezia",
   "hematemesis", "dysphagia", "odynophagia", "heartburn", "reflux",
   "indigestion", "anorexia", "weight loss", "fatigue", "weakness",
   "abdominal pain", "rectal bleeding", "change in bowel habits"]

def anatomical_locations : List (List Char) := strList
  ["esophagus", "stomach", "duodenum", "jejunum", "ileum", "cecum",
   "ascending colon", "transverse colon", "descending colon", "sigmoid colon",
   "rectum", "anus", "anal canal", "gastroesophageal junction", "pylorus",
   "antrum", "fundus", "cardia", "terminal ileum", "ileocecal valve",
   "appendix", "liver", "gallbladder", "pancreas", "spleen", "peritoneum",
   "mucosa", "submucosa", "muscularis", "serosa", "lumen", "wall",
   "distal", "proximal", "sigmoid", "cecal", "hepatic flexure", "splenic flexure"]

/-! ## Compiled patterns (`_compile_patterns`) -/

def exactCh (c : Char) : RE := RE.cls (CharCls.exact c)

/-- `\b[A-Z]\d{2}(?:\.\d{1,2}[A-Z]?)?\b` -/
def icd10RE : RE := reSeq
  [.wb, .cls .upperAZ, .cls .digit, .cls .digit,
   .opt (reSeq [exactCh '.',
                reAlts [reSeq [.cls .digit, .cls .digit], .cls .digit],
                .opt (.cls .upperAZ)]),
   .wb]

/-- `\b[A-Z]\d{4}\b` -/
def hcpcsRE : RE := reSeq
  [.wb, .cls .upperAZ, .cls .digit, .cls .digit, .cls .digit, .cls .digit, .wb]

/-- The optional prefix `(?:modifier\s+)?` of the modifier pattern. -/
def modPre : RE := reSeq [sLit "modifier", .plusG .space]

/-- The capture group body `[A-Z]{2}|\d{2}` of the modifier pattern
(`[A-Z]` under `re.IGNORECASE` matches any letter). -/
def modInner : RE := reAlts
  [reSeq [.cls .letterCI, .cls .letterCI], reSeq [.cls .digit, .cls .digit]]

/-- `\b(?:modifier\s+)?([A-Z]{2}|\d{2})\b` with `re.IGNORECASE`. -/
def modifierRE : RE := reSeq [.wb, .opt modPre, .grp modInner, .wb]

/-- First diagnosis section pattern:
`(?:diagnosis|impression|findings?):\s*(.*?)(?:\n\n|\nPROCEDURE|\nRECOMMENDATIONS?|\nPLAN|\Z)`
with `re.IGNORECASE | re.DOTALL`. -/
def diagRE1 : RE := reSeq
  [reAlts [sLit "diagnosis", sLit "impression", .seq (sLit "finding") (.opt (sLit "s"))],
   exactCh ':', .starG .space, .grp (.starL .anyc),
   reAlts [sLit "\n\n", sLit "\nprocedure",
           .seq (sLit "\nrecommendation") (.opt (sLit "s")), sLit "\nplan", .eos]]

/-- Second diagnosis section pattern:
`(?:primary|secondary|final)\s+diagnosis:\s*(.*?)(?:\n\n|\n[A-Z]+:|\Z)`. -/
def diagRE2 : RE := reSeq
  [reAlts [sLit "primary", sLit "secondary", sLit "final"],
   .plusG .space, sLit "diagnosis:", .starG .space, .grp (.starL .anyc),
   reAlts [sLit "\n\n", reSeq [exactCh '\n', .plusG .letterCI, exactCh ':'], .eos]]

/-- First procedure section pattern:
`(?:procedure|procedure\s+performed):\s*(.*?)(?:\n\n|\nDIAGNOSIS|\nFINDINGS?|\nIMPRESSION|\Z)`. -/
def procRE1 : RE := reSeq
  [reAlts [sLit "procedure", reSeq [sLit "procedure", .plusG .space, sLit "performed"]],
   exactCh ':', .starG .space, .grp (.starL .anyc),
   reAlts [sLit "\n\n", sLit "\ndiagnosis",
           .seq (sLit "\nfinding") (.opt (sLit "s")), sLit "\nimpression", .eos]]

/-- Second procedure section pattern:
`(?:endoscopic|surgical)\s+procedure:\s*(.*?)(?:\n\n|\n[A-Z]+:|\Z)`. -/
def procRE2 : RE := reSeq
  [reAlts [sLit "endoscopic", sLit "surgical"],
   .plusG .space, sLit "procedure:", .starG .space, .grp (.starL .anyc),
   reAlts [sLit "\n\n", reSeq [exactCh '\n', .plusG .letterCI, exactCh ':'], .eos]]

/-- Fallback keyword pattern in `extract_diagnosis`:
`{keyword}\s*(.*?)(?:\n[A-Z]+:|\n\n|\Z)`. -/
def kwRE (kw : String) : RE := reSeq
  [sLit kw, .starG .space, .grp (.starL .anyc),
   reAlts [reSeq [exactCh '\n', .plusG .letterCI, exactCh ':'], sLit "\n\n", .eos]]

/-- Entry splitter in `extract_diagnosis`: `[;\n]|(?:\d+\.)`. -/
def diagSplitRE : RE :=
  reAlts [exactCh ';', exactCh '\n', reSeq [.plusG .digit, exactCh '.']]

/-- Suffix-tolerant term pattern: `\b<term>(?:s|es|ies)?\b`, `re.IGNORECASE`. -/
def clinicalSuffixRE (t : List Char) : RE := reSeq
  [.wb, .lit true t, .opt (reAlts [sLit "s", sLit "es", sLit "ies"]), .wb]

/-- Suffix-tolerant location pattern: `\b<term>(?:al|ic|ine|ar)?\b`, `re.IGNORECASE`. -/
def anatomicalSuffixRE (t : List Char) : RE := reSeq
  [.wb, .lit true t, .opt (reAlts [sLit "al", sLit "ic", sLit "ine", sLit "ar"]), .wb]

/-! ## CPT scanner

`re.findall(r'\b\d{5}\b', text)` embedded directly as a left-to-right
non-overlapping scan: a match needs a non-word (or absent) character on the
left, five digits, and a non-word (or absent) character on the right; the
scan resumes after a match. -/

def cptFindall : Option Char → List Char → List (List Char)
  | prev, c1 :: c2 :: c3 :: c4 :: c5 :: r =>
    if nonWordOpt prev && isDigitCh c1 && isDigitCh c2 && isDigitCh c3 &&
       isDigitCh c4 && isDigitCh c5 && nonWordOpt r.head? then
      [c1, c2, c3, c4, c5] :: cptFindall (some c5) r
    else
      cptFindall (some c1) (c2 :: c3 :: c4 :: c5 :: r)
  | _, _ => []

/-! ## `extract_medical_codes` -/

def icd10_codes (text : List Char) : List (List Char) :=
  dedup (findallWhole icd10RE text)

def cpt_codes (text : List Char) : List (List Char) :=
  dedup ((cptFindall none text).filter
    (fun c => decide (10000 ≤ digitsToNat c ∧ digitsToNat c ≤ 99999)))

def hcpcs_codes (text : List Char) : List (List Char) :=
  dedup (findallWhole hcpcsRE text)

def modifier_codes (text : List Char) : List (List Char) :=
  dedup (findallGrp modifierRE text)

/-! ## Term / location extraction -/

/-- `all_terms = self.medical_terms + self.symptoms` in
`extract_clinical_terms`. -/
def allTerms : List (List Char) := medical_terms ++ symptoms

/-- `SimpleClinicalExtractor.extract_clinical_terms`: for each term, add it
on substring containment in the lowercased text, and add every lowercased
suffix-tolerant regex match. -/
def extract_clinical_terms (text : List Char) : List (List Char) :=
  dedup (allTerms.flatMap (fun t =>
    (if containsSub (lowerL text) t then [t] else [])
    ++ (findallWhole (clinicalSuffixRE t) text).map lowerL))

/-- `SimpleClinicalExtractor.extract_anatomical_locations`: for each
location, add it on substring containment, and add it (the canonical term)
when the suffix-tolerant regex has any match. -/
def extract_anatomical_locations (text : List Char) : List (List Char) :=
  dedup (anatomical_locations.flatMap (fun loc =>
    (if containsSub (lowerL text) loc then [loc] else [])
    ++ (if (findallWhole (anatomicalSuffixRE loc) text).isEmpty then []
        else [loc])))

/-! ## `extract_diagnosis` -/

def diagKeywords : List String :=
  ["diagnosis:", "impression:", "findings:", "conclusion:"]

/-- Per-span processing in `extract_diagnosis`: collapse whitespace, split
into entries, strip each plus its trailing periods, keep entries longer
than 5 characters. -/
def processDiagSpan (m : List Char) : List (List Char) :=
  let dt := collapseWs (stripL m)
  if dt.isEmpty then []
  else ((reSplit diagSplitRE dt).map (fun d => rstripDot (stripL d))).filter
    (fun d => decide (5 < d.length))

def extract_diagnosis (text : List Char) : List (List Char) :=
  let ds := (findallGrp diagRE1 text ++ findallGrp diagRE2 text).flatMap processDiagSpan
  let ds2 := if ds.isEmpty then
      diagKeywords.flatMap (fun kw =>
        (findallGrp (kwRE kw) text).flatMap (fun m =>
          let cleaned := collapseWs (stripL m)
          if decide (5 < cleaned.length) then [cleaned] else []))
    else ds
  dedup ds2

/-! ## `extract_procedures` -/

def procSectionSpans (text : List Char) : List (List Char) :=
  findallGrp procRE1 text ++ findallGrp procRE2 text

def extract_procedures (text : List Char) : List (List Char) :=
  dedup ((procSectionSpans text).flatMap (fun m =>
      let pt := collapseWs (stripL m)
      if pt.isEmpty then [] else [pt])
    ++ procedures_dict.flatMap (fun p =>
      if containsSub (lowerL text) p then [p] else []))

/-! ## Report segmentation (`split_reports`)

The eight separator patterns (identical in both extractors). -/

def sepRE1 : RE := reSeq
  [exactCh '\n', .starG .space, sLit "report", .plusG .space, .plusG .digit]

def sepRE2 : RE := reSeq
  [exactCh '\n', .starG .space, sLit "report", .plusG .space, .plusG .digit]

def sepRE3 : RE := reSeq
  [exactCh '\n', .starG .space, sLit "case", .plusG .space, .plusG .digit]

def sepRE4 : RE := reSeq
  [exactCh '\n', .starG .space, sLit "patient", .plusG .space, .plusG .digit]

/-- `\n\s*Date:.*?\n.*?Name:` (no DOTALL: `.` excludes newline). -/
def sepRE5 : RE := reSeq
  [exactCh '\n', .starG .space, sLit "date:", .starL .dot, exactCh '\n',
   .starL .dot, sLit "name:"]

/-- `\n\s*\d+\.\s*(?:Patient|Report)` -/
def sepRE6 : RE := reSeq
  [exactCh '\n', .starG .space, .plusG .digit, exactCh '.', .starG .space,
   reAlts [sLit "patient", sLit "report"]]

/-- `\n\s*-{3,}\s*\n` -/
def sepRE7 : RE := reSeq
  [exactCh '\n', .starG .space, .repG (.exact '-') 3, .starG .space, exactCh '\n']

/-- `\n\s*={3,}\s*\n` -/
def sepRE8 : RE := reSeq
  [exactCh '\n', .starG .space, .repG (.exact '=') 3, .starG .space, exactCh '\n']

def separators : List RE :=
  [sepRE1, sepRE2, sepRE3, sepRE4, sepRE5, sepRE6, sepRE7, sepRE8]

/-- `\n\s*\n\s*\n`, the blank-gap fallback splitter. -/
def blankRE : RE := reSeq
  [exactCh '\n', .starG .space, exactCh '\n', .starG .space, exactCh '\n']

/-- Try each separator pattern in order; on the first that splits the text
into more than one piece, return the stripped non-empty pieces. -/
def firstSepSplit : List RE → List Char → Option (List (List Char))
  | [], _ => none
  | p :: ps, text =>
    let rs := reSplit p text
    if 1 < rs.length then some ((rs.map stripL).filter (fun r => !r.isEmpty))
    else firstSepSplit ps text

def sepSplitResult (text : List Char) : Option (List (List Char)) :=
  firstSepSplit separators text

/-- `SimpleClinicalExtractor.split_reports`. -/
def simple_split_reports (text : List Char) : List (List Char) :=
  match sepSplitResult text with
  | some rs => rs
  | none =>
    let reports := reSplit blankRE text
    if 4 ≤ reports.length then (reports.map stripL).filter (fun r => !r.isEmpty)
    else if !(stripL text).isEmpty then [text] else []

/-- `ClinicalExtractor.split_reports`: same cascade, but with a length-based
4-way fallback (`len(text) > 1000`) before the single-report default. -/
def clinical_split_reports (text : List Char) : List (List Char) :=
  match sepSplitResult text with
  | some rs => rs
  | none =>
    let reports := reSplit blankRE text
    if 4 ≤ reports.length then (reports.map stripL).filter (fun r => !r.isEmpty)
    else if 1000 < text.length then
      let L := text.length / 4
      [stripL (text.take L),
       stripL ((text.drop L).take L),
       stripL ((text.drop (2 * L)).take L),
       stripL (text.drop (3 * L))]
    else [text]

/-! ## Per-report processing loop (`process_pdf`)

The loop `for i, report_text in enumerate(reports): try: ... except:
continue` is embedded with the per-report processing abstracted as a
fallible function `f` of the report text and its index (`report_id` is
`"Report {i+1}"`, a function of the index): an `Except.error` models a
raised exception, which drops that report's record and continues. -/

def processLoop {E R : Type} (f : List Char → Nat → Except E R) :
    List (List Char) → Nat → List R
  | [], _ => []
  | r :: rs, i =>
    match f r i with
    | .ok rec => rec :: processLoop f rs (i + 1)
    | .error _ => processLoop f rs (i + 1)

/-! ## Engine lemmas

Soundness facts about the matcher needed for the universally quantified
claims about the modifier pattern: every successful run invokes its
continuation, and the modifier capture group is always exactly two letters
or two digits. -/

theorem orElse_eq_some {α : Type} {a : Option α} {f : Unit → Option α} {v : α}
    (h : a.orElse f = some v) : a = some v ∨ f () = some v := by
  cases a with
  | some x => exact Or.inl h
  | none => exact Or.inr h

theorem starGRun_eq_some {α : Type} (cc : CharCls) :
    ∀ (rest : List Char) (prev : Option Char)
      (k : Option Char → List Char → Option α) (v : α),
      starGRun cc prev rest k = some v → ∃ p r, k p r = some v := by
  intro rest
  induction rest with
  | nil =>
    intro prev k v h
    exact ⟨prev, [], h⟩
  | cons c cs ih =>
    intro prev k v h
    rw [starGRun] at h
    by_cases hc : clsMatch cc c = true
    · rw [if_pos hc] at h
      rcases orElse_eq_some h with h2 | h2
      · exact ih (some c) k v h2
      · exact ⟨prev, c :: cs, h2⟩
    · rw [if_neg hc] at h
      exact ⟨prev, c :: cs, h⟩

theorem litRun_eq_some {α : Type} (ci : Bool) :
    ∀ (s : List Char) (prev : Option Char) (rest : List Char)
      (k : Option Char → List Char → Option α) (v : α),
      litRun ci s prev rest k = some v → ∃ p r, k p r = some v := by
  intro s
  induction s with
  | nil =>
    intro prev rest k v h
    exact ⟨prev, rest, h⟩
  | cons p ps ih =>
    intro prev rest k v h
    cases rest with
    | nil => exact Option.noConfusion h
    | cons c cs =>
      rw [litRun] at h
      by_cases hc : (if ci then lowerCh c == lowerCh p else c == p) = true
      · rw [if_pos hc] at h
        exact ih (some c) cs k v h
      · rw [if_neg hc] at h
        exact Option.noConfusion h

/-- A successful run of two consecutive character classes consumes exactly
two matching characters. -/
theorem runRE_cls2_eq_some {α : Type} (cc : CharCls) (p : Option Char) (r : List Char)
    (g : Option (List Char)) (k : Option Char → List Char → Option (List Char) → Option α)
    (v : α)
    (h : runRE (reSeq [RE.cls cc, RE.cls cc]) p r g k = some v) :
    ∃ a b r2, r = a :: b :: r2 ∧ clsMatch cc a = true ∧ clsMatch cc b = true ∧
      k (some b) r2 g = some v := by
  cases r with
  | nil => exact Option.noConfusion h
  | cons a r1 =>
    replace h : (if clsMatch cc a = true then
        runRE (reSeq [RE.cls cc]) (some a) r1 g k else none) = some v := h
    by_cases ha : clsMatch cc a = true
    · rw [if_pos ha] at h
      cases r1 with
      | nil => exact Option.noConfusion h
      | cons b r2 =>
        replace h : (if clsMatch cc b = true then k (some b) r2 g else none) = some v := h
        by_cases hb : clsMatch cc b = true
        · rw [if_pos hb] at h
          exact ⟨a, b, r2, rfl, ha, hb, h⟩
        · rw [if_neg hb] at h
          exact Option.noConfusion h
    · rw [if_neg ha] at h
      exact Option.noConfusion h

/-- A successful run of the modifier capture group captures exactly two
letters or two digits. -/
theorem modInner_grp_eq_some {α : Type} (p : Option Char) (r : List Char)
    (g : Option (List Char))
    (k : Option Char → List Char → Option (List Char) → Option α) (v : α)
    (h : runRE (RE.grp modInner) p r g k = some v) :
    ∃ a b r2, r = a :: b :: r2 ∧
      ((isLetterCh a = true ∧ isLetterCh b = true) ∨
       (isDigitCh a = true ∧ isDigitCh b = true)) ∧
      k (some b) r2 (some [a, b]) = some v := by
  replace h : ((runRE (reSeq [RE.cls .letterCI, RE.cls .letterCI]) p r g
      (fun p2 r2 _ => k p2 r2 (some (r.take (r.length - r2.length))))).orElse
      (fun _ => runRE (reSeq [RE.cls .digit, RE.cls .digit]) p r g
      (fun p2 r2 _ => k p2 r2 (some (r.take (r.length - r2.length)))))) = some v := h
  have hfin : ∀ (a b : Char) (r2 : List Char), r = a :: b :: r2 →
      (fun p2 r2' (_ : Option (List Char)) =>
        k p2 r2' (some (r.take (r.length - r2'.length)))) (some b) r2 g = some v →
      k (some b) r2 (some [a, b]) = some v := by
    intro a b r2 hr hk
    subst hr
    replace hk : k (some b) r2
        (some ((a :: b :: r2).take ((a :: b :: r2).length - r2.length))) = some v := hk
    have hl : (a :: b :: r2).length - r2.length = 2 := by
      simp only [List.length_cons]
      omega
    rw [hl] at hk
    exact hk
  rcases orElse_eq_some h with h2 | h2
  · obtain ⟨a, b, r2, hr, ha, hb, hk⟩ := runRE_cls2_eq_some _ _ _ _ _ _ h2
    exact ⟨a, b, r2, hr, Or.inl ⟨ha, hb⟩, hfin a b r2 hr hk⟩
  · obtain ⟨a, b, r2, hr, ha, hb, hk⟩ := runRE_cls2_eq_some _ _ _ _ _ _ h2
    exact ⟨a, b, r2, hr, Or.inr ⟨ha, hb⟩, hfin a b r2 hr hk⟩

/-- Every successful anchored run of the whole modifier pattern invokes its
continuation with a captured group of exactly two letters or two digits. -/
theorem modifierRE_run_eq_some {α : Type} (p : Option Char) (r : List Char)
    (k : Option Char → List Char → Option (List Char) → Option α) (v : α)
    (h : runRE modifierRE p r none k = some v) :
    ∃ a b r2,
      ((isLetterCh a = true ∧ isLetterCh b = true) ∨
       (isDigitCh a = true ∧ isDigitCh b = true)) ∧
      k (some b) r2 (some [a, b]) = some v := by
  replace h : (if wordOpt p != wordOpt r.head? then
      runRE (.seq (.opt modPre) (.seq (.grp modInner) (.seq .wb .eps))) p r none k
    else none) = some v := h
  by_cases hw : (wordOpt p != wordOpt r.head?) = true
  · rw [if_pos hw] at h
    replace h : ((runRE modPre p r none
        (fun p1 r1 g1 => runRE (.seq (.grp modInner) (.seq .wb .eps)) p1 r1 g1 k)).orElse
        (fun _ => runRE (.seq (.grp modInner) (.seq .wb .eps)) p r none k)) = some v := h
    have tail : ∀ (p5 : Option Char) (r5 : List Char),
        runRE (.seq (.grp modInner) (.seq .wb .eps)) p5 r5 none k = some v →
        ∃ a b r2,
          ((isLetterCh a = true ∧ isLetterCh b = true) ∨
           (isDigitCh a = true ∧ isDigitCh b = true)) ∧
          k (some b) r2 (some [a, b]) = some v := by
      intro p5 r5 h5
      replace h5 : runRE (RE.grp modInner) p5 r5 none
          (fun p6 r6 g6 => runRE (.seq .wb .eps) p6 r6 g6 k) = some v := h5
      obtain ⟨a, b, r2, _, hshape, hk⟩ := modInner_grp_eq_some _ _ _ _ _ h5
      replace hk : (if wordOpt (some b) != wordOpt r2.head? then
          k (some b) r2 (some [a, b]) else none) = some v := hk
      by_cases hw2 : (wordOpt (some b) != wordOpt r2.head?) = true
      · rw [if_pos hw2] at hk
        exact ⟨a, b, r2, hshape, hk⟩
      · rw [if_neg hw2] at hk
        exact Option.noConfusion hk
    rcases orElse_eq_some h with h2 | h2
    · replace h2 : litRun true "modifier".data p r
          (fun p2 r2 => runRE (.seq (.plusG .space) .eps) p2 r2 none
            (fun p1 r1 g1 => runRE (.seq (.grp modInner) (.seq .wb .eps)) p1 r1 g1 k)) =
          some v := h2
      obtain ⟨p3, r3, h3⟩ := litRun_eq_some true "modifier".data p r _ v h2
      cases r3 with
      | nil => exact Option.noConfusion h3
      | cons c cs =>
        replace h3 : (if clsMatch .space c = true then
            starGRun .space (some c) cs
              (fun p4 r4 => runRE (.seq (.grp modInner) (.seq .wb .eps)) p4 r4 none k)
          else none) = some v := h3
        by_cases hc : clsMatch .space c = true
        · rw [if_pos hc] at h3
          obtain ⟨p5, r5, h5⟩ := starGRun_eq_some .space cs (some c) _ v h3
          exact tail p5 r5 h5
        · rw [if_neg hc] at h3
          exact Option.noConfusion h3
    · exact tail p r h2
  · rw [if_neg hw] at h
    exact Option.noConfusion h

theorem findFromAux_modifier :
    ∀ (rest : List Char) (prev : Option Char) (acc pre matched : List Char)
      (g : Option (List Char)) (p2 : Option Char) (after : List Char),
      findFromAux modifierRE prev rest acc = some (pre, matched, g, p2, after) →
      ∃ a b, g = some [a, b] ∧
        ((isLetterCh a = true ∧ isLetterCh b = true) ∨
         (isDigitCh a = true ∧ isDigitCh b = true)) := by
  intro rest
  induction rest with
  | nil =>
    intro prev acc pre matched g p2 after h
    rw [findFromAux] at h
    cases htr : tryRE modifierRE prev [] with
    | none =>
      rw [htr] at h
      exact Option.noConfusion h
    | some trip =>
      obtain ⟨p', rest2, g'⟩ := trip
      rw [htr] at h
      obtain ⟨a, b, r2, hshape, hk⟩ :=
        modifierRE_run_eq_some prev [] (fun p r2 g => some (p, r2, g)) (p', rest2, g') htr
      replace hk : (some ((some b), r2, some [a, b]) :
          Option (Option Char × List Char × Option (List Char))) =
          some (p', rest2, g') := hk
      injection hk with hk2
      injection h with h2
      refine ⟨a, b, ?_, hshape⟩
      have hg' : g' = some [a, b] := by
        have h4 := congrArg (fun t => t.2.2) hk2
        simpa using h4.symm
      have hgg : g = g' := by
        have h4 := congrArg (fun t => t.2.2.1) h2
        simpa using h4.symm
      rw [hgg, hg']
  | cons c cs ih =>
    intro prev acc pre matched g p2 after h
    rw [findFromAux] at h
    cases htr : tryRE modifierRE prev (c :: cs) with
    | none =>
      rw [htr] at h
      exact ih (some c) (c :: acc) pre matched g p2 after h
    | some trip =>
      obtain ⟨p', rest2, g'⟩ := trip
      rw [htr] at h
      obtain ⟨a, b, r2, hshape, hk⟩ :=
        modifierRE_run_eq_some prev (c :: cs) (fun p r2 g => some (p, r2, g)) (p', rest2, g') htr
      replace hk : (some ((some b), r2, some [a, b]) :
          Option (Option Char × List Char × Option (List Char))) =
          some (p', rest2, g') := hk
      injection hk with hk2
      injection h with h2
      refine ⟨a, b, ?_, hshape⟩
      have hg' : g' = some [a, b] := by
        have := congrArg (fun t => t.2.2) hk2
        simpa using this.symm
      have hgg : g = g' := by
        have := congrArg (fun t => t.2.2.1) h2
        simpa using this.symm
      rw [hgg, hg']

theorem findallAux_modifier :
    ∀ (fuel : Nat) (prev : Option Char) (rest : List Char)
      (x : List Char × Option (List Char)),
      x ∈ findallAux modifierRE fuel prev rest →
      ∃ a b, x.2 = some [a, b] ∧
        ((isLetterCh a = true ∧ isLetterCh b = true) ∨
         (isDigitCh a = true ∧ isDigitCh b = true)) := by
  intro fuel
  induction fuel with
  | zero =>
    intro prev rest x hx
    simp only [findallAux] at hx
    exact absurd hx (List.not_mem_nil x)
  | succ fuel ih =>
    intro prev rest x hx
    simp only [findallAux] at hx
    cases hff : findFromAux modifierRE prev rest [] with
    | none =>
      rw [hff] at hx
      exact absurd hx (List.not_mem_nil x)
    | some res =>
      obtain ⟨pre, matched, g, p2, after⟩ := res
      rw [hff] at hx
      rcases List.mem_cons.mp hx with rfl | hx2
      · obtain ⟨a, b, hg, hs⟩ := findFromAux_modifier rest prev [] pre matched g p2 after hff
        exact ⟨a, b, hg, hs⟩
      · by_cases hm : matched.isEmpty = true
        · rw [if_pos hm] at hx2
          cases after with
          | nil => exact absurd hx2 (List.not_mem_nil x)
          | cons c cs => exact ih (some c) cs x hx2
        · rw [if_neg hm] at hx2
          exact ih p2 after x hx2

/-- Every string in the modifiers output is exactly two letters or two
digits (the capture group of the pattern). -/
theorem modifier_codes_shape :
    ∀ (text x : List Char), x ∈ modifier_codes text →
      ∃ a b, x = [a, b] ∧
        ((isLetterCh a = true ∧ isLetterCh b = true) ∨
         (isDigitCh a = true ∧ isDigitCh b = true)) := by
  intro text x hx
  unfold modifier_codes at hx
  rw [mem_dedup] at hx
  unfold findallGrp at hx
  rw [List.mem_map] at hx
  obtain ⟨y, hy, hxy⟩ := hx
  obtain ⟨a, b, hg, hs⟩ := findallAux_modifier _ _ _ y hy
  refine ⟨a, b, ?_, hs⟩
  rw [← hxy, hg]
  rfl

/-! ## Claim C1 -/

def c1text : List Char :=
  "DIAGNOSIS: Diverticulosis of sigmoid colon.\n\nCPT: 45378\nICD-10: K57.30".data

/-- C1: for the input text
`"DIAGNOSIS: Diverticulosis of sigmoid colon.\n\nCPT: 45378\nICD-10: K57.30"`,
the diagnosis extraction emits a set containing
`"Diverticulosis of sigmoid colon"` (trailing period stripped), the CPT
extraction emits exactly `{"45378"}`, and the ICD-10 extraction emits exactly
`{"K57.30"}`. -/
theorem C1_scenario :
    ("Diverticulosis of sigmoid colon".data ∈ extract_diagnosis c1text) ∧
    cpt_codes c1text = ["45378".data] ∧
    icd10_codes c1text = ["K57.30".data] := by decide

/-! ## Claim C2 -/

/-- Modelled from the spec: a word-bounded run of exactly five digits
occurring in the text (the set the claim says the CPT output equals). -/
def boundedRun5 (text x : List Char) : Prop :=
  x.length = 5 ∧ (∀ c ∈ x, isDigitCh c = true) ∧
  ∃ pre post, text = pre ++ x ++ post ∧
    nonWordOpt pre.getLast? = true ∧ nonWordOpt post.head? = true

/-- The character left of the current scan position: the last character of
the consumed text `pre`, or the scanner's carried previous character when
nothing was consumed. -/
def olast (prev : Option Char) (pre : List Char) : Option Char :=
  match pre.getLast? with
  | some c => some c
  | none => prev

theorem olast_shift : ∀ (m : List Char) (prev : Option Char) (q : Char),
    olast prev (q :: m) = olast (some q) m := by
  intro m
  induction m with
  | nil =>
    intro prev q
    rfl
  | cons c cs ih =>
    intro prev q
    have hA : ∀ (pv : Option Char), olast pv (q :: c :: cs) = olast pv (c :: cs) := by
      intro pv
      unfold olast
      rw [List.getLast?_cons_cons]
    rw [hA prev, ih prev c, ih (some q) c]

theorem olast_cons (prev : Option Char) (q : Char) (m : List Char) :
    olast prev (q :: m) = olast (some q) m := olast_shift m prev q

theorem olast_none (pre : List Char) : olast none pre = pre.getLast? := by
  cases h : pre.getLast? <;> simp [olast, h]

theorem isWord_of_isDigit {c : Char} (h : isDigitCh c = true) : isWordCh c = true := by
  simp [isWordCh, h]

theorem exists_five (x : List Char) (h : x.length = 5) :
    ∃ a b c d e, x = [a, b, c, d, e] := by
  rcases x with _ | ⟨a, x⟩
  · simp at h
  rcases x with _ | ⟨b, x⟩
  · simp at h
  rcases x with _ | ⟨c, x⟩
  · simp at h
  rcases x with _ | ⟨d, x⟩
  · simp at h
  rcases x with _ | ⟨e, x⟩
  · simp at h
  rcases x with _ | ⟨f, x⟩
  · exact ⟨a, b, c, d, e, rfl⟩
  · simp at h

/-- Soundness of the CPT scan: every emitted string is a word-bounded
5-digit run of the scanned text. -/
theorem cptFindall_sound :
    ∀ (n : Nat) (rest : List Char), rest.length ≤ n →
      ∀ (prev : Option Char) (x : List Char), x ∈ cptFindall prev rest →
        ∃ pre post, rest = pre ++ x ++ post ∧ x.length = 5 ∧
          (∀ c ∈ x, isDigitCh c = true) ∧
          nonWordOpt (olast prev pre) = true ∧ nonWordOpt post.head? = true := by
  intro n
  induction n with
  | zero =>
    intro rest hlen prev x hx
    have : rest = [] := List.length_eq_zero.mp (Nat.le_zero.mp hlen)
    subst this
    simp [cptFindall] at hx
  | succ n ih =>
    intro rest hlen prev x hx
    rcases rest with _ | ⟨c1, _ | ⟨c2, _ | ⟨c3, _ | ⟨c4, _ | ⟨c5, r⟩⟩⟩⟩⟩
    · simp [cptFindall] at hx
    · simp [cptFindall] at hx
    · simp [cptFindall] at hx
    · simp [cptFindall] at hx
    · simp [cptFindall] at hx
    · simp only [cptFindall] at hx
      by_cases hcond : (nonWordOpt prev && isDigitCh c1 && isDigitCh c2 && isDigitCh c3 &&
          isDigitCh c4 && isDigitCh c5 && nonWordOpt r.head?) = true
      · rw [if_pos hcond] at hx
        simp only [Bool.and_eq_true] at hcond
        obtain ⟨⟨⟨⟨⟨⟨hb, h1⟩, h2⟩, h3⟩, h4⟩, h5⟩, hr⟩ := hcond
        rcases List.mem_cons.mp hx with rfl | hx2
        · refine ⟨[], r, rfl, rfl, ?_, ?_, hr⟩
          · intro c hc
            simp only [List.mem_cons, List.not_mem_nil, or_false] at hc
            rcases hc with rfl | rfl | rfl | rfl | rfl
            · exact h1
            · exact h2
            · exact h3
            · exact h4
            · exact h5
          · simpa [olast] using hb
        · obtain ⟨pre2, post, hreq, hxl, hxd, hol, hpo⟩ :=
            ih r (by simp at hlen; omega) (some c5) x hx2
          refine ⟨c1 :: c2 :: c3 :: c4 :: c5 :: pre2, post, ?_, hxl, hxd, ?_, hpo⟩
          · simp [hreq]
          · simpa only [olast_cons] using hol
      · rw [if_neg hcond] at hx
        obtain ⟨pre2, post, hreq, hxl, hxd, hol, hpo⟩ :=
          ih (c2 :: c3 :: c4 :: c5 :: r) (by simp at hlen ⊢; omega) (some c1) x hx
        refine ⟨c1 :: pre2, post, ?_, hxl, hxd, ?_, hpo⟩
        · simp [hreq]
        · simpa only [olast_cons] using hol

/-- Completeness of the CPT scan: every word-bounded 5-digit run of the text
is emitted. -/
theorem cptFindall_complete :
    ∀ (n : Nat) (pre : List Char), pre.length ≤ n →
      ∀ (x post : List Char) (prev : Option Char), x.length = 5 →
        (∀ c ∈ x, isDigitCh c = true) →
        nonWordOpt (olast prev pre) = true → nonWordOpt post.head? = true →
        x ∈ cptFindall prev (pre ++ x ++ post) := by
  intro n
  induction n with
  | zero =>
    intro pre hlen x post prev hxl hxd hol hpo
    have : pre = [] := List.length_eq_zero.mp (Nat.le_zero.mp hlen)
    subst this
    obtain ⟨x1, x2, x3, x4, x5, rfl⟩ := exists_five x hxl
    simp only [List.nil_append, List.cons_append]
    simp only [cptFindall]
    rw [if_pos]
    · exact List.mem_cons_self _ _
    · have hd1 := hxd x1 (by simp)
      have hd2 := hxd x2 (by simp)
      have hd3 := hxd x3 (by simp)
      have hd4 := hxd x4 (by simp)
      have hd5 := hxd x5 (by simp)
      have hb : nonWordOpt prev = true := by simpa [olast] using hol
      simp [hb, hd1, hd2, hd3, hd4, hd5, hpo]
  | succ n ih =>
    intro pre hlen x post prev hxl hxd hol hpo
    obtain ⟨x1, x2, x3, x4, x5, rfl⟩ := exists_five x hxl
    have hw1 : isWordCh x1 = true := isWord_of_isDigit (hxd x1 (by simp))
    have hw2 : isWordCh x2 = true := isWord_of_isDigit (hxd x2 (by simp))
    have hw3 : isWordCh x3 = true := isWord_of_isDigit (hxd x3 (by simp))
    have hw4 : isWordCh x4 = true := isWord_of_isDigit (hxd x4 (by simp))
    have hw5 : isWordCh x5 = true := isWord_of_isDigit (hxd x5 (by simp))
    rcases pre with _ | ⟨p1, _ | ⟨p2, _ | ⟨p3, _ | ⟨p4, _ | ⟨p5, pre5⟩⟩⟩⟩⟩
    · -- empty prefix: handled exactly as in the base case
      simp only [List.nil_append, List.cons_append]
      simp only [cptFindall]
      rw [if_pos]
      · exact List.mem_cons_self _ _
      · have hb : nonWordOpt prev = true := by simpa [olast] using hol
        simp [hb, hxd x1 (by simp), hxd x2 (by simp), hxd x3 (by simp),
          hxd x4 (by simp), hxd x5 (by simp), hpo]
    · -- one consumed character: the window would end inside the run
      simp only [List.cons_append, List.nil_append]
      simp only [cptFindall]
      rw [if_neg]
      · exact ih [] (by simp) [x1, x2, x3, x4, x5] post (some p1) hxl hxd
          (by simpa [olast, olast_cons] using hol) hpo
      · simp [nonWordOpt, wordOpt, hw5]
    · simp only [List.cons_append, List.nil_append]
      simp only [cptFindall]
      rw [if_neg]
      · exact ih [p2] (by simp at hlen ⊢; omega) [x1, x2, x3, x4, x5] post (some p1) hxl hxd
          (by simpa only [olast_cons] using hol) hpo
      · simp [nonWordOpt, wordOpt, hw4]
    · simp only [List.cons_append, List.nil_append]
      simp only [cptFindall]
      rw [if_neg]
      · exact ih [p2, p3] (by simp at hlen ⊢; omega) [x1, x2, x3, x4, x5] post (some p1) hxl hxd
          (by simpa only [olast_cons] using hol) hpo
      · simp [nonWordOpt, wordOpt, hw3]
    · simp only [List.cons_append, List.nil_append]
      simp only [cptFindall]
      rw [if_neg]
      · exact ih [p2, p3, p4] (by simp at hlen ⊢; omega) [x1, x2, x3, x4, x5] post (some p1) hxl hxd
          (by simpa only [olast_cons] using hol) hpo
      · simp [nonWordOpt, wordOpt, hw2]
    · -- at least five consumed characters: the scanner may or may not match
      -- a window inside the prefix
      simp only [List.cons_append, List.nil_append]
      simp only [cptFindall]
      by_cases hcond : (nonWordOpt prev && isDigitCh p1 && isDigitCh p2 && isDigitCh p3 &&
          isDigitCh p4 && isDigitCh p5 &&
          nonWordOpt (pre5 ++ [x1, x2, x3, x4, x5] ++ post).head?) = true
      · rw [if_pos]
        · refine List.mem_cons_of_mem _ ?_
          exact ih pre5 (by simp at hlen; omega) [x1, x2, x3, x4, x5] post (some p5) hxl hxd
            (by simpa only [olast_cons] using hol) hpo
        · simpa only [List.cons_append, List.append_assoc] using hcond
      · rw [if_neg]
        · exact ih (p2 :: p3 :: p4 :: p5 :: pre5) (by simp at hlen ⊢; omega)
            [x1, x2, x3, x4, x5] post (some p1) hxl hxd
            (by simpa only [olast_cons] using hol) hpo
        · intro hc
          apply hcond
          simpa only [List.cons_append, List.append_assoc] using hc

/-- C2 counterexample: `"04567"` is a word-bounded 5-digit run of the text
`"04567"`, yet the CPT output of that text is empty — the `[10000, 99999]`
range filter is not vacuous, it drops runs with a leading zero. -/
theorem C2_counterexample :
    boundedRun5 "04567".data "04567".data ∧
    "04567".data ∉ cpt_codes "04567".data := by
  refine ⟨⟨by decide, by decide, [], [], rfl, by decide, by decide⟩, by decide⟩

/-- Any 5-digit string has numeric value at most 99999. -/
theorem digitsToNat_five_le (x : List Char) (hxl : x.length = 5)
    (hxd : ∀ c ∈ x, isDigitCh c = true) : digitsToNat x ≤ 99999 := by
  obtain ⟨a, b, c, d, e, rfl⟩ := exists_five x hxl
  have ha := hxd a (by simp)
  have hb := hxd b (by simp)
  have hc := hxd c (by simp)
  have hd := hxd d (by simp)
  have he := hxd e (by simp)
  simp only [isDigitCh, Bool.and_eq_true, decide_eq_true_eq] at ha hb hc hd he
  simp only [digitsToNat, List.foldl]
  omega

/-- C2 amended: the CPT set equals the word-bounded 5-digit runs of the text
*whose numeric value is at least 10000* (leading-zero runs are excluded by
the range filter); the upper bound of the filter is indeed vacuous, since
every 5-digit run has value at most 99999. -/
theorem C2_amended :
    (∀ text x, x ∈ cpt_codes text ↔ (boundedRun5 text x ∧ 10000 ≤ digitsToNat x)) ∧
    (∀ text x, boundedRun5 text x → digitsToNat x ≤ 99999) := by
  have part2 : ∀ (text x : List Char), boundedRun5 text x → digitsToNat x ≤ 99999 := by
    rintro text x ⟨hxl, hxd, _⟩
    exact digitsToNat_five_le x hxl hxd
  refine ⟨?_, part2⟩
  intro text x
  unfold cpt_codes
  rw [mem_dedup, List.mem_filter]
  constructor
  · rintro ⟨hmem, hp⟩
    simp only [decide_eq_true_eq] at hp
    obtain ⟨pre, post, hreq, hxl, hxd, hol, hpo⟩ :=
      cptFindall_sound text.length text (Nat.le_refl _) none x hmem
    refine ⟨⟨hxl, hxd, pre, post, hreq, ?_, hpo⟩, hp.1⟩
    rw [← olast_none]
    exact hol
  · rintro ⟨⟨hxl, hxd, pre, post, hreq, hgl, hpo⟩, hge⟩
    constructor
    · rw [hreq]
      exact cptFindall_complete pre.length pre (Nat.le_refl _) x post none hxl hxd
        (by rw [olast_none]; exact hgl) hpo
    · simp only [decide_eq_true_eq]
      exact ⟨hge, digitsToNat_five_le x hxl hxd⟩

/-- Witness for C2 amended at the text `"54321"`: the run `"54321"` is
word-bounded with value at least 10000, hence in the CPT set, and its value
is at most 99999. -/
theorem C2_amended_witness :
    "54321".data ∈ cpt_codes "54321".data ∧ digitsToNat "54321".data ≤ 99999 := by
  have run5 : boundedRun5 "54321".data "54321".data :=
    ⟨by decide, by decide, [], [], rfl, by decide, by decide⟩
  exact ⟨(C2_amended.1 "54321".data "54321".data).mpr ⟨run5, by decide⟩,
         C2_amended.2 "54321".data "54321".data run5⟩

/-! ## Claim C3 -/

/-- C3 counterexample: for the input text `"ab"` the modifiers output is
exactly `{"ab"}`, a lowercase two-letter word — the pattern is compiled with
`re.IGNORECASE`, so lowercase tokens are emitted, refuting the claim that
every modifier is two uppercase letters or two digits. -/
theorem C3_counterexample :
    modifier_codes "ab".data = ["ab".data] ∧
    isUpperCh 'a' = false ∧ isDigitCh 'a' = false := by decide

/-- C3 amended: every string in the modifiers output is exactly two ASCII
letters (of either case, because the pattern is compiled with
`re.IGNORECASE`) or exactly two digits. -/
theorem C3_amended :
    ∀ (text x : List Char), x ∈ modifier_codes text →
      ∃ a b, x = [a, b] ∧
        ((isLetterCh a = true ∧ isLetterCh b = true) ∨
         (isDigitCh a = true ∧ isDigitCh b = true)) := by
  intro text x hx
  exact modifier_codes_shape text x hx

/-- Witness for C3 amended at the text `"ab"`, whose modifier output is the
lowercase token `"ab"`. -/
theorem C3_amended_witness :
    ∃ a b, "ab".data = [a, b] ∧
      ((isLetterCh a = true ∧ isLetterCh b = true) ∨
       (isDigitCh a = true ∧ isDigitCh b = true)) :=
  C3_amended "ab".data "ab".data (by decide)

/-! ## Claim C10 -/

/-- C10: every emitted modifier token has length exactly 2 (only the capture
group is collected, the `"modifier "` prefix is stripped), and for the text
`"modifier 22"` the modifiers output is exactly `{"22"}`. -/
theorem C10_modifier_token :
    (∀ (text x : List Char), x ∈ modifier_codes text → x.length = 2) ∧
    modifier_codes "modifier 22".data = ["22".data] := by
  constructor
  · intro text x hx
    obtain ⟨a, b, rfl, _⟩ := modifier_codes_shape text x hx
    rfl
  · decide

/-- Witness for C10 at the token `"22"` emitted for the text
`"modifier 22"`. -/
theorem C10_modifier_token_witness : ("22".data).length = 2 :=
  C10_modifier_token.1 "modifier 22".data "22".data (by decide)

/-! ## Claim C5 -/

/-- C5 counterexample: for the input `" a "` (no separators, fewer than 4
blank-gap segments, non-empty strip, length at most 1000) both segmenters
return the sequence containing the *untrimmed* input, not the trimmed one. -/
theorem C5_counterexample :
    simple_split_reports " a ".data = [" a ".data] ∧
    clinical_split_reports " a ".data = [" a ".data] ∧
    " a ".data ≠ stripL " a ".data := by decide

/-- C5 amended: when no separator pattern splits the text, the blank-gap
fallback yields fewer than 4 segments, and the text has length at most 1000,
both segmenters return the single-element sequence containing the *original
untrimmed* input text (when its strip is non-empty); the simple extractor
returns the empty sequence when the text trims to empty. -/
theorem C5_amended :
    (∀ text : List Char, sepSplitResult text = none →
      (reSplit blankRE text).length < 4 →
      (stripL text).isEmpty = false → text.length ≤ 1000 →
      simple_split_reports text = [text] ∧ clinical_split_reports text = [text]) ∧
    (∀ text : List Char, sepSplitResult text = none →
      (reSplit blankRE text).length < 4 →
      (stripL text).isEmpty = true → text.length ≤ 1000 →
      simple_split_reports text = []) := by
  constructor
  · intro text h1 h2 h3 h4
    have hb : ¬ (4 ≤ (reSplit blankRE text).length) := Nat.not_le.mpr h2
    have hl : ¬ (1000 < text.length) := Nat.not_lt.mpr h4
    constructor
    · simp only [simple_split_reports, h1, if_neg hb, h3]
      simp
    · simp only [clinical_split_reports, h1, if_neg hb, if_neg hl]
  · intro text h1 h2 h3 _
    simp only [simple_split_reports, h1]
    rw [if_neg (Nat.not_le.mpr h2), h3]
    simp

/-- Witness for C5 amended at the 5-character text `"hello"` (both
segmenters return the untrimmed singleton) and the whitespace text `"  "`
(the simple segmenter returns the empty sequence). -/
theorem C5_amended_witness :
    (simple_split_reports "hello".data = ["hello".data] ∧
     clinical_split_reports "hello".data = ["hello".data]) ∧
    simple_split_reports "  ".data = [] := by
  exact ⟨C5_amended.1 "hello".data (by decide) (by decide) (by decide) (by decide),
         C5_amended.2 "  ".data (by decide) (by decide) (by decide) (by decide)⟩

/-! ## Claim C4 -/

/-- The four contiguous near-equal chunks reassemble the original text. -/
theorem four_chunks (t : List Char) (L : Nat) :
    t.take L ++ ((t.drop L).take L ++ ((t.drop (2 * L)).take L ++ t.drop (3 * L))) = t := by
  have e2 : (t.drop L).drop L = t.drop (2 * L) := by
    rw [List.drop_drop]
    congr 1
    ring
  have e3 : (t.drop (2 * L)).drop L = t.drop (3 * L) := by
    rw [List.drop_drop]
    congr 1
    ring
  calc t.take L ++ ((t.drop L).take L ++ ((t.drop (2 * L)).take L ++ t.drop (3 * L)))
      = t.take L ++ ((t.drop L).take L ++
          ((t.drop (2 * L)).take L ++ (t.drop (2 * L)).drop L)) := by rw [e3]
    _ = t.take L ++ ((t.drop L).take L ++ t.drop (2 * L)) := by
          rw [List.take_append_drop]
    _ = t.take L ++ ((t.drop L).take L ++ (t.drop L).drop L) := by rw [e2]
    _ = t.take L ++ t.drop L := by rw [List.take_append_drop]
    _ = t := List.take_append_drop L t

def c4T : List Char := List.replicate 1001 'a'

set_option maxRecDepth 100000 in
/-- C4 counterexample: for a 1001-character text with no separators and no
blank gaps, `SimpleClinicalExtractor.split_reports` returns a single
segment, not 4 — that extractor has no length-based fallback, so the claim
fails for it. -/
theorem C4_counterexample :
    sepSplitResult c4T = none ∧ (reSplit blankRE c4T).length < 4 ∧
    1000 < c4T.length ∧ (simple_split_reports c4T).length = 1 := by
  refine ⟨by decide, by decide, by decide, by decide⟩

/-- C4 amended: for every text longer than 1000 characters that no separator
pattern splits and whose blank-gap fallback yields fewer than 4 segments,
`ClinicalExtractor.split_reports` (only) returns exactly the 4 trimmed
contiguous near-equal chunks (last chunk absorbing the remainder), whose
untrimmed concatenation reconstructs the original text;
`SimpleClinicalExtractor.split_reports` has no length-based fallback and
instead returns the empty sequence when the text trims to empty, and
otherwise the single-element sequence containing the untrimmed text. -/
theorem C4_amended :
    ∀ text : List Char, sepSplitResult text = none →
      (reSplit blankRE text).length < 4 → 1000 < text.length →
      (clinical_split_reports text =
        [stripL (text.take (text.length / 4)),
         stripL ((text.drop (text.length / 4)).take (text.length / 4)),
         stripL ((text.drop (2 * (text.length / 4))).take (text.length / 4)),
         stripL (text.drop (3 * (text.length / 4)))] ∧
      text.take (text.length / 4) ++
        ((text.drop (text.length / 4)).take (text.length / 4) ++
         ((text.drop (2 * (text.length / 4))).take (text.length / 4) ++
          text.drop (3 * (text.length / 4)))) = text) ∧
      simple_split_reports text =
        (if (stripL text).isEmpty then [] else [text]) := by
  intro text h1 h2 h3
  have hb : ¬ (4 ≤ (reSplit blankRE text).length) := Nat.not_le.mpr h2
  refine ⟨⟨?_, four_chunks text (text.length / 4)⟩, ?_⟩
  · simp only [clinical_split_reports, h1, if_neg hb, if_pos h3]
  · simp only [simple_split_reports, h1, if_neg hb]
    by_cases hs : (stripL text).isEmpty = true
    · simp [hs]
    · simp [hs]

set_option maxRecDepth 100000 in
/-- Witness for C4 amended at the 1001-character text `c4T`. -/
theorem C4_amended_witness :
    (clinical_split_reports c4T =
      [stripL (c4T.take (c4T.length / 4)),
       stripL ((c4T.drop (c4T.length / 4)).take (c4T.length / 4)),
       stripL ((c4T.drop (2 * (c4T.length / 4))).take (c4T.length / 4)),
       stripL (c4T.drop (3 * (c4T.length / 4)))] ∧
    c4T.take (c4T.length / 4) ++
      ((c4T.drop (c4T.length / 4)).take (c4T.length / 4) ++
       ((c4T.drop (2 * (c4T.length / 4))).take (c4T.length / 4) ++
        c4T.drop (3 * (c4T.length / 4)))) = c4T) ∧
    simple_split_reports c4T = (if (stripL c4T).isEmpty then [] else [c4T]) :=
  C4_amended c4T (by decide) (by decide) (by decide)

/-! ## Claim C6 -/

/-- C6 counterexample: the anatomical term `"ileum"` occurs in the text
`"ileumal"` with the suffix `al` (the suffix regex matches the whole word
`"ileumal"`), yet the extracted set does not contain the suffixed surface
form `"ileumal"` — the code adds only the canonical dictionary term. -/
theorem C6_counterexample :
    "ileum".data ∈ anatomical_locations ∧
    findallWhole (anatomicalSuffixRE "ileum".data) "ileumal".data = ["ileumal".data] ∧
    "ileumal".data ∉ extract_anatomical_locations "ileumal".data := by decide

/-- C6 amended: every string emitted by the anatomical-location extraction
is a canonical dictionary term, and whenever the suffix-tolerant regex for a
dictionary term has any match in the text, the canonical term (not the
surface form) is in the emitted set. -/
theorem C6_amended :
    (∀ text x, x ∈ extract_anatomical_locations text → x ∈ anatomical_locations) ∧
    (∀ loc text, loc ∈ anatomical_locations →
      (findallWhole (anatomicalSuffixRE loc) text).isEmpty = false →
      loc ∈ extract_anatomical_locations text) := by
  constructor
  · intro text x hx
    unfold extract_anatomical_locations at hx
    rw [mem_dedup, List.mem_flatMap] at hx
    obtain ⟨loc, hloc, hxl⟩ := hx
    have hx2 : x = loc := by
      rcases List.mem_append.mp hxl with h | h <;> split_ifs at h <;> simp_all
    exact hx2 ▸ hloc
  · intro loc text hloc he
    unfold extract_anatomical_locations
    rw [mem_dedup, List.mem_flatMap]
    refine ⟨loc, hloc, List.mem_append.mpr (Or.inr ?_)⟩
    rw [he]
    simp

/-- Witness for C6 amended, at the dictionary term `"ileum"` and the text
`"ileumine"` (the suffix regex matches `"ileumine"`, and the canonical term
is in the output, which is contained in the dictionary). -/
theorem C6_amended_witness :
    "ileum".data ∈ extract_anatomical_locations "ileumine".data ∧
    "ileum".data ∈ anatomical_locations := by
  have h1 := C6_amended.2 "ileum".data "ileumine".data (by decide) (by decide)
  exact ⟨h1, C6_amended.1 "ileumine".data "ileum".data h1⟩

/-! ## Claim C7 -/

/-- C7 counterexample: in the text `"PROCEDURE: a; b"` the captured span is
kept whole, so the procedures output contains the entry `"a; b"` — length 4
(not greater than 5) and containing a semicolon — refuting the claimed
splitting and length filtering. -/
theorem C7_counterexample :
    "a; b".data ∈ extract_procedures "PROCEDURE: a; b".data ∧
    ("a; b".data).length ≤ 5 ∧ ';' ∈ "a; b".data := by decide

/-- C7 amended: the procedures output is exactly the deduplicated union of
(i) each whole captured section span with whitespace collapsed and trimmed,
when non-empty — no splitting on semicolons/newlines/numbered markers, no
trailing-period trim, no length filter — and (ii) the dictionary procedure
terms contained in the lowercased text. -/
theorem C7_amended :
    ∀ text x, x ∈ extract_procedures text ↔
      ((∃ m ∈ procSectionSpans text, x = collapseWs (stripL m) ∧ x ≠ []) ∨
       (x ∈ procedures_dict ∧ containsSub (lowerL text) x = true)) := by
  intro text x
  unfold extract_procedures
  rw [mem_dedup, List.mem_append, List.mem_flatMap, List.mem_flatMap]
  apply or_congr
  · apply exists_congr
    intro m
    apply and_congr_right
    intro _
    by_cases h : (collapseWs (stripL m)).isEmpty
    · have h0 : collapseWs (stripL m) = [] := List.isEmpty_iff.mp h
      rw [if_pos h, h0]
      simp
    · have h2 : collapseWs (stripL m) ≠ [] := by
        intro hc
        rw [hc] at h
        exact h rfl
      rw [if_neg h]
      simp only [List.mem_singleton]
      constructor
      · rintro rfl
        exact ⟨rfl, h2⟩
      · rintro ⟨rfl, _⟩
        rfl
  · constructor
    · rintro ⟨p, hp, hxp⟩
      by_cases hc : containsSub (lowerL text) p
      · rw [if_pos hc] at hxp
        rcases List.mem_singleton.mp hxp with rfl
        exact ⟨hp, hc⟩
      · rw [if_neg hc] at hxp
        exact absurd hxp (List.not_mem_nil x)
    · rintro ⟨hp, hc⟩
      exact ⟨x, hp, by rw [if_pos hc]; exact List.mem_singleton_self x⟩

/-! ## Claim C8 -/

/-- C8: every dictionary term (clinical term or symptom, anatomical
location, procedure) contained verbatim (case-insensitively) in the text
appears in the corresponding extracted set. -/
theorem C8_dictionary_containment :
    (∀ t ∈ allTerms, ∀ text, containsSub (lowerL text) t = true →
      t ∈ extract_clinical_terms text) ∧
    (∀ loc ∈ anatomical_locations, ∀ text, containsSub (lowerL text) loc = true →
      loc ∈ extract_anatomical_locations text) ∧
    (∀ p ∈ procedures_dict, ∀ text, containsSub (lowerL text) p = true →
      p ∈ extract_procedures text) := by
  refine ⟨?_, ?_, ?_⟩
  · intro t ht text hc
    unfold extract_clinical_terms
    rw [mem_dedup, List.mem_flatMap]
    refine ⟨t, ht, List.mem_append.mpr (Or.inl ?_)⟩
    rw [if_pos hc]
    exact List.mem_singleton_self t
  · intro loc hloc text hc
    unfold extract_anatomical_locations
    rw [mem_dedup, List.mem_flatMap]
    refine ⟨loc, hloc, List.mem_append.mpr (Or.inl ?_)⟩
    rw [if_pos hc]
    exact List.mem_singleton_self loc
  · intro p hp text hc
    unfold extract_procedures
    rw [mem_dedup, List.mem_append]
    refine Or.inr ?_
    rw [List.mem_flatMap]
    refine ⟨p, hp, ?_⟩
    rw [if_pos hc]
    exact List.mem_singleton_self p

/-- Witness for C8 at the clinical term `"polyp"`, the anatomical location
`"cecum"` and the procedure `"biopsy"` found (case-insensitively) in
concrete texts. -/
theorem C8_witness :
    "polyp".data ∈ extract_clinical_terms "A POLYP was seen".data ∧
    "cecum".data ∈ extract_anatomical_locations "to the Cecum".data ∧
    "biopsy".data ∈ extract_procedures "BIOPSY obtained".data := by
  refine ⟨?_, ?_, ?_⟩
  · exact C8_dictionary_containment.1 "polyp".data (by decide)
      "A POLYP was seen".data (by decide)
  · exact C8_dictionary_containment.2.1 "cecum".data (by decide)
      "to the Cecum".data (by decide)
  · exact C8_dictionary_containment.2.2 "biopsy".data (by decide)
      "BIOPSY obtained".data (by decide)

/-! ## Claim C9 -/

theorem processLoop_append {E R : Type} (f : List Char → Nat → Except E R)
    (xs ys : List (List Char)) (b : List Char) (e : E) :
    ∀ i, f b (i + xs.length) = .error e →
      processLoop f (xs ++ b :: ys) i =
        processLoop f xs i ++ processLoop f ys (i + xs.length + 1) := by
  induction xs with
  | nil =>
    intro i h
    simp only [List.length_nil, Nat.add_zero] at h
    simp [processLoop, h]
  | cons x xs ih =>
    intro i h
    have h2 : f b (i + 1 + xs.length) = .error e := by
      have : i + 1 + xs.length = i + (x :: xs).length := by
        simp [List.length_cons]
        omega
      rw [this]
      exact h
    have h3 : i + 1 + xs.length + 1 = i + (x :: xs).length + 1 := by
      simp [List.length_cons]
      omega
    have key : processLoop f ((x :: xs) ++ b :: ys) i =
        match f x i with
        | .ok r => r :: processLoop f (xs ++ b :: ys) (i + 1)
        | .error _ => processLoop f (xs ++ b :: ys) (i + 1) := rfl
    have key2 : processLoop f (x :: xs) i =
        match f x i with
        | .ok r => r :: processLoop f xs (i + 1)
        | .error _ => processLoop f xs (i + 1) := rfl
    rw [key, key2]
    cases hfx : f x i with
    | ok r =>
      simp only
      rw [ih (i + 1) h2, h3, List.cons_append]
    | error err =>
      simp only
      rw [ih (i + 1) h2, h3]

/-- C9: if processing one report raises (modelled as the per-report function
returning `Except.error`), no record for that report appears in the collected
results, the records for earlier reports are unchanged, and all later
reports are still processed (with their original indices). -/
theorem C9_per_report_failure {E R : Type} (f : List Char → Nat → Except E R)
    (xs ys : List (List Char)) (b : List Char) (e : E)
    (h : f b xs.length = .error e) :
    processLoop f (xs ++ b :: ys) 0 =
      processLoop f xs 0 ++ processLoop f ys (xs.length + 1) := by
  have := processLoop_append f xs ys b e 0 (by rw [Nat.zero_add]; exact h)
  rw [Nat.zero_add] at this
  exact this

def c9f : List Char → Nat → Except Unit Nat :=
  fun _ i => if i == 1 then .error () else .ok i

/-- Witness for C9: with a per-report function failing exactly at index 1,
the middle report's record is dropped and the neighbours keep theirs. -/
theorem C9_witness :
    processLoop c9f (["x".data] ++ "y".data :: ["z".data]) 0 =
      processLoop c9f ["x".data] 0 ++ processLoop c9f ["z".data] 2 := by
  exact C9_per_report_failure c9f ["x".data] ["z".data] "y".data () rfl

end Medicodio
